import Mathlib

/-!
Verification of the mailgun_v3 address/credentials core (src/lib.rs).

Strings are modelled as `List Char`.  Rust's panicking `assert!` calls in
`Credentials::with_base` are modelled as an `Except` returning a distinct
error per assertion, so that "which check fired first" is observable.
`str::len()` in Rust is the UTF-8 byte length, modelled by summing
`Char.utf8Size`.

The three regexes of the source are anchored at both ends, so a match is a
decomposition of the whole input.  They are embedded as executable functions
over all split points of the input list:
- `is_valid_display_name` embeds the anchored match of the pattern
  consisting of one-or-more characters other than angle brackets;
- `is_valid_address` embeds the anchored local-at-domain-dot-tld pattern,
  where a match exists iff some decomposition of the input fits;
- `reCaptures` embeds the anchored name-space-bracketed-address pattern of
  `try_from`, with the greedy dot-star resolved to the longest valid name
  (the last element of the split list, which enumerates prefixes in
  increasing length).  The regex dot excludes the newline character.
-/

/-- Rust `str::len()`: the UTF-8 byte length of the string. -/
def strLen (s : List Char) : Nat := (s.map Char.utf8Size).sum

/-- Rust `s.starts_with(p)` on strings (character-wise prefix test). -/
def starts_with : List Char → List Char → Bool
  | _, [] => true
  | [], _ :: _ => false
  | c :: s, p :: ps => c = p && starts_with s ps

/-- Source constant `MAILGUN_DEFAULT_API`, the string "https://api.mailgun.net/v3". -/
def MAILGUN_DEFAULT_API : List Char := "https://api.mailgun.net/v3".toList

/-- The `Credentials` struct: api_base, api_key, domain. -/
structure Credentials where
  api_base : List Char
  api_key : List Char
  domain : List Char
deriving DecidableEq, Repr

/-- One value per `assert!` in `Credentials::with_base`, identified by its
panic message. -/
inductive CredPanic where
  /-- Panic message: Domain does not start with http. -/
  | apiBaseNotHttp
  /-- Panic message: api_base does not contain any dots. -/
  | apiBaseNoDots
  /-- Panic message: api_key is to short. -/
  | apiKeyTooShort
  /-- Panic message: Domain does not contain any dots. -/
  | domainNoDots
deriving DecidableEq, Repr

/-- Source `Credentials::with_base`: the four `assert!`s in source order; the first
failing assertion panics (modelled as `Except.error`), otherwise the three
strings are stored verbatim. -/
def with_base (api_base api_key domain : List Char) : Except CredPanic Credentials :=
  if ¬ starts_with api_base ("http".toList) then
    Except.error CredPanic.apiBaseNotHttp
  else if ¬ ((api_base.filter fun c => c = '.').length ≥ 1) then
    Except.error CredPanic.apiBaseNoDots
  else if ¬ (strLen api_key ≥ 35) then
    Except.error CredPanic.apiKeyTooShort
  else if ¬ ((domain.filter fun c => c = '.').length ≥ 1) then
    Except.error CredPanic.domainNoDots
  else
    Except.ok ⟨api_base, api_key, domain⟩

/-- Source `Credentials::new`: delegates to `with_base` with the default API base. -/
def Credentials.new (api_key domain : List Char) : Except CredPanic Credentials :=
  with_base MAILGUN_DEFAULT_API api_key domain

/-- A character admissible in the address pattern: not `<`, `>`, or space. -/
def okChar (c : Char) : Bool := c ≠ '<' && c ≠ '>' && c ≠ ' '

/-- A character admissible in a display name: not `<` or `>`. -/
def noAngle (c : Char) : Bool := c ≠ '<' && c ≠ '>'

/-- The regex dot: any character except a newline. -/
def dotAny (c : Char) : Bool := c ≠ '\n'

/-- All decompositions of a list into prefix and suffix, prefixes listed in
increasing length order. -/
def splits : List Char → List (List Char × List Char)
  | [] => [([], [])]
  | c :: cs => ([], c :: cs) :: (splits cs).map fun p => (c :: p.1, p.2)

/-- A non-empty run of address characters. -/
def seg1 (s : List Char) : Bool := !s.isEmpty && s.all okChar

/-- Anchored tail after the domain dot: a literal `.` then a non-empty run of
address characters. -/
def dotSeg : List Char → Bool
  | [] => false
  | c :: d2 => c = '.' && seg1 d2

/-- Anchored tail after the local part: a literal `@`, then some split of the
rest into a non-empty run, a `.`, and a final non-empty run. -/
def atDomain : List Char → Bool
  | [] => false
  | c :: rest => c = '@' && (splits rest).any fun q => seg1 q.1 && dotSeg q.2

/-- Source `is_valid_address`: the anchored local-at-domain-dot-tld regex; true iff
some decomposition of the whole string fits the pattern. -/
def is_valid_address (s : List Char) : Bool :=
  (splits s).any fun p => seg1 p.1 && atDomain p.2

/-- Source `is_valid_display_name`: one-or-more characters, none an angle bracket. -/
def is_valid_display_name (name : List Char) : Bool :=
  !name.isEmpty && name.all noAngle

/-- A possibly-empty `>`-free run closed by a final `>` (used for the address
capture group of the parser's regex). -/
def tailCapture : List Char → Option (List Char)
  | [] => none
  | c :: rest =>
      if c = '>' then (if rest.isEmpty then some [] else none)
      else (tailCapture rest).map fun a => c :: a

/-- The parser's address capture group: a non-empty `>`-free run closed by a
final `>`. -/
def addrCapture : List Char → Option (List Char)
  | [] => none
  | c :: rest => if c = '>' then none else (tailCapture rest).map fun a => c :: a

/-- One candidate split of the parser's regex: the prefix is the name capture
(any characters except newline), then a literal space and `<`, then the
address capture closed by the final `>`. -/
def nameSplit (p : List Char × List Char) : Option (List Char × List Char) :=
  match p.2 with
  | c1 :: c2 :: rest =>
      if p.1.all dotAny && c1 = ' ' && c2 = '<' then
        (addrCapture rest).map fun a => (p.1, a)
      else none
  | _ => none

/-- Captures of the parser's anchored regex.  The greedy name group takes the
longest valid prefix, i.e. the last valid split. -/
def reCaptures (s : List Char) : Option (List Char × List Char) :=
  ((splits s).filterMap nameSplit).getLast?

/-- The `EmailAddress` struct: optional display name and raw address. -/
structure EmailAddress where
  name : Option (List Char)
  address : List Char
deriving DecidableEq, Repr

/-- Source `EmailAddress::address` (the address-only constructor): no validation. -/
def EmailAddress.fromAddress (address : List Char) : EmailAddress :=
  ⟨none, address⟩

/-- Source `EmailAddress::name_address`: no validation. -/
def EmailAddress.name_address (name address : List Char) : EmailAddress :=
  ⟨some name, address⟩

/-- Source `EmailAddress::email`: the raw address field. -/
def EmailAddress.email (e : EmailAddress) : List Char := e.address

/-- Source `impl fmt::Display for EmailAddress`: name, space, address in angle
brackets when a name is present, else the bare address. -/
def EmailAddress.toDisplayText (e : EmailAddress) : List Char :=
  match e.name with
  | some name => name ++ ' ' :: '<' :: (e.address ++ ['>'])
  | none => e.address

/-- The error string of a failed display-name check. -/
def invalidDisplayName : String := "Invalid display name"

/-- The error string of a failed address check. -/
def invalidEmailAddress : String := "Invalid email address"

/-- The intermediate `result` of `try_from`: the captures of the regex when it
matches (the source's capture-arity test is always true on a match, so it is
dropped here), else the whole input as a bare address. -/
def candidate (input : List Char) : EmailAddress :=
  match reCaptures input with
  | some caps => EmailAddress.name_address caps.1 caps.2
  | none => EmailAddress.fromAddress input

/-- Source `TryFrom<&str>::try_from for EmailAddress`: build the candidate, reject an
invalid display name first, then an invalid address. -/
def try_from (input : List Char) : Except String EmailAddress :=
  let result := candidate input
  match result.name with
  | some name =>
      if is_valid_display_name name then
        if is_valid_address result.address then Except.ok result
        else Except.error invalidEmailAddress
      else Except.error invalidDisplayName
  | none =>
      if is_valid_address result.address then Except.ok result
      else Except.error invalidEmailAddress

/-- The §3 data-model invariant of an `EmailAddress` value: a present display
name has no angle brackets, and the address matches the validator's shape. -/
def addrInvariant (e : EmailAddress) : Bool :=
  (match e.name with
   | some n => n.all noAngle
   | none => true) && is_valid_address e.address

/-- No dot occurs after any at-sign: the "domain part" of the string contains
no `.` character. -/
def domainDotFree : List Char → Bool
  | [] => true
  | c :: rest =>
      if c = '@' then (rest.all fun d => d ≠ '.') && domainDotFree rest
      else domainDotFree rest

/-- Case analysis of `with_base`: which assertion fires first, and the
success case.  Shared helper for the credential claims. -/
theorem with_base_cases (b k d : List Char) :
    (¬ starts_with b ("http".toList) = true →
        with_base b k d = Except.error CredPanic.apiBaseNotHttp) ∧
    (starts_with b ("http".toList) = true → (b.filter fun c => c = '.').length < 1 →
        with_base b k d = Except.error CredPanic.apiBaseNoDots) ∧
    (starts_with b ("http".toList) = true → (b.filter fun c => c = '.').length ≥ 1 →
        strLen k < 35 →
        with_base b k d = Except.error CredPanic.apiKeyTooShort) ∧
    (starts_with b ("http".toList) = true → (b.filter fun c => c = '.').length ≥ 1 →
        strLen k ≥ 35 → (d.filter fun c => c = '.').length < 1 →
        with_base b k d = Except.error CredPanic.domainNoDots) ∧
    (starts_with b ("http".toList) = true → (b.filter fun c => c = '.').length ≥ 1 →
        strLen k ≥ 35 → (d.filter fun c => c = '.').length ≥ 1 →
        with_base b k d = Except.ok ⟨b, k, d⟩) := by
  unfold with_base
  refine ⟨?_, ?_, ?_, ?_, ?_⟩ <;> intros <;> simp_all

/-- C2: `with_base` runs the four checks in order — http prefix, dot in
api_base, api_key byte length ≥ 35, dot in domain — the first failing check
aborts with that check's panic, and if all pass the three strings are stored
verbatim. -/
theorem with_base_check_order (b k d : List Char) :
    (¬ starts_with b ("http".toList) = true →
        with_base b k d = Except.error CredPanic.apiBaseNotHttp) ∧
    (starts_with b ("http".toList) = true → (b.filter fun c => c = '.').length < 1 →
        with_base b k d = Except.error CredPanic.apiBaseNoDots) ∧
    (starts_with b ("http".toList) = true → (b.filter fun c => c = '.').length ≥ 1 →
        strLen k < 35 →
        with_base b k d = Except.error CredPanic.apiKeyTooShort) ∧
    (starts_with b ("http".toList) = true → (b.filter fun c => c = '.').length ≥ 1 →
        strLen k ≥ 35 → (d.filter fun c => c = '.').length < 1 →
        with_base b k d = Except.error CredPanic.domainNoDots) ∧
    (starts_with b ("http".toList) = true → (b.filter fun c => c = '.').length ≥ 1 →
        strLen k ≥ 35 → (d.filter fun c => c = '.').length ≥ 1 →
        with_base b k d = Except.ok ⟨b, k, d⟩) :=
  with_base_cases b k d

/-- Witness for C2: `with_base("ftp://x.y", 35 a's, "a.b")` fails the http
prefix check (the spec's own concrete case). -/
theorem with_base_check_order_witness :
    with_base ("ftp://x.y".toList) (List.replicate 35 'a') ("a.b".toList) =
      Except.error CredPanic.apiBaseNotHttp :=
  (with_base_check_order ("ftp://x.y".toList) (List.replicate 35 'a')
      ("a.b".toList)).1 (by decide)

/-- C8: `Credentials::new(k, d)` is exactly `with_base` applied to the literal
default base "https://api.mailgun.net/v3". -/
theorem new_eq_with_base_default (k d : List Char) :
    Credentials.new k d = with_base ("https://api.mailgun.net/v3".toList) k d := rfl

/-- Counterexample to C7: the api_key check counts UTF-8 bytes (`str::len`),
not characters.  18 copies of 'é' are 18 characters (fewer than 35) but 36
bytes, so construction succeeds instead of aborting. -/
theorem api_key_char_count_cex :
    (List.replicate 18 'é').length < 35 ∧
    with_base ("http://x.y".toList) (List.replicate 18 'é') ("a.b".toList) =
      Except.ok ⟨"http://x.y".toList, List.replicate 18 'é', "a.b".toList⟩ := by
  constructor
  · decide
  · rfl

/-- C7 amended: the api_key check is a UTF-8 byte-length threshold: with the
other arguments passing their checks, construction succeeds iff the key is at
least 35 bytes, and otherwise aborts with the api-key-length panic. -/
theorem api_key_byte_threshold (b k d : List Char)
    (hb1 : starts_with b ("http".toList) = true)
    (hb2 : (b.filter fun c => c = '.').length ≥ 1)
    (hd : (d.filter fun c => c = '.').length ≥ 1) :
    (strLen k ≥ 35 → with_base b k d = Except.ok ⟨b, k, d⟩) ∧
    (strLen k < 35 → with_base b k d = Except.error CredPanic.apiKeyTooShort) := by
  constructor
  · intro hk
    exact ((with_base_cases b k d).2.2.2.2) hb1 hb2 hk hd
  · intro hk
    exact ((with_base_cases b k d).2.2.1) hb1 hb2 hk

/-- Witness for C7 amended: a 35-byte ASCII key succeeds. -/
theorem api_key_byte_threshold_witness :
    with_base ("http://x.y".toList) (List.replicate 35 'a') ("a.b".toList) =
      Except.ok ⟨"http://x.y".toList, List.replicate 35 'a', "a.b".toList⟩ :=
  (api_key_byte_threshold ("http://x.y".toList) (List.replicate 35 'a')
      ("a.b".toList) (by decide) (by decide) (by decide)).1 (by decide)

/-- Every element of `splits s` is a decomposition of `s`. -/
theorem splits_eq_append {s : List Char} {p : List Char × List Char}
    (h : p ∈ splits s) : p.1 ++ p.2 = s := by
  induction s generalizing p with
  | nil =>
      simp [splits] at h
      simp [h]
  | cons c cs ih =>
      simp only [splits, List.mem_cons, List.mem_map] at h
      rcases h with h | ⟨q, hq, rfl⟩
      · simp [h]
      · simp [ih hq]

/-- Every decomposition of `s` occurs in `splits s`. -/
theorem append_mem_splits (x y : List Char) : (x, y) ∈ splits (x ++ y) := by
  induction x with
  | nil => cases y <;> simp [splits]
  | cons c cs ih =>
      simp only [List.cons_append, splits, List.mem_cons, List.mem_map]
      exact Or.inr ⟨(cs, y), ih, rfl⟩

/-- Soundness of `tailCapture`: a capture reconstructs the input and avoids
the closing bracket. -/
theorem tailCapture_sound {s a : List Char} (h : tailCapture s = some a) :
    s = a ++ ['>'] ∧ ∀ c ∈ a, c ≠ '>' := by
  induction s generalizing a with
  | nil => simp [tailCapture] at h
  | cons c rest ih =>
      by_cases hc : c = '>'
      · subst hc
        cases rest with
        | nil =>
            simp [tailCapture] at h
            subst h
            simp
        | cons d ds => simp [tailCapture] at h
      · simp only [tailCapture, if_neg hc, Option.map_eq_some'] at h
        obtain ⟨b, hb, rfl⟩ := h
        obtain ⟨rfl, hbgt⟩ := ih hb
        refine ⟨rfl, ?_⟩
        intro x hx
        rcases List.mem_cons.mp hx with rfl | hx
        · exact hc
        · exact hbgt x hx

/-- Completeness of `tailCapture` on a bracket-closed input. -/
theorem tailCapture_complete {a : List Char} (h : ∀ c ∈ a, c ≠ '>') :
    tailCapture (a ++ ['>']) = some a := by
  induction a with
  | nil => simp [tailCapture]
  | cons c cs ih =>
      have hc : c ≠ '>' := h c (List.mem_cons_self c cs)
      have := ih fun d hd => h d (List.mem_cons_of_mem c hd)
      simp [tailCapture, hc, this]

/-- Soundness of `addrCapture`: the capture is non-empty, bracket-free, and
reconstructs the input. -/
theorem addrCapture_sound {s a : List Char} (h : addrCapture s = some a) :
    s = a ++ ['>'] ∧ a ≠ [] ∧ ∀ c ∈ a, c ≠ '>' := by
  cases s with
  | nil => simp [addrCapture] at h
  | cons c rest =>
      by_cases hc : c = '>'
      · simp [addrCapture, hc] at h
      · simp only [addrCapture, if_neg hc, Option.map_eq_some'] at h
        obtain ⟨b, hb, rfl⟩ := h
        obtain ⟨rfl, hbgt⟩ := tailCapture_sound hb
        refine ⟨rfl, by simp, ?_⟩
        intro x hx
        rcases List.mem_cons.mp hx with rfl | hx
        · exact hc
        · exact hbgt x hx

/-- Completeness of `addrCapture` on a bracket-closed non-empty input. -/
theorem addrCapture_complete {a : List Char} (h0 : a ≠ [])
    (h : ∀ c ∈ a, c ≠ '>') : addrCapture (a ++ ['>']) = some a := by
  cases a with
  | nil => exact absurd rfl h0
  | cons c cs =>
      have hc : c ≠ '>' := h c (List.mem_cons_self c cs)
      have := tailCapture_complete fun d hd => h d (List.mem_cons_of_mem c hd)
      simp [addrCapture, hc, this]

/-- If a list is non-empty and all its elements are `v`, its last element is
`v`. -/
theorem getLast?_all_eq {α : Type} {l : List α} {v : α} (h0 : v ∈ l)
    (h1 : ∀ x ∈ l, x = v) : l.getLast? = some v := by
  have hne : l ≠ [] := List.ne_nil_of_mem h0
  rw [List.getLast?_eq_getLast_of_ne_nil hne]
  exact congrArg some (h1 _ (List.getLast_mem hne))

/-- Soundness of `nameSplit`: a produced capture pair determines the shape of
the split. -/
theorem nameSplit_sound {p x : List Char × List Char} (h : nameSplit p = some x) :
    x.1 = p.1 ∧ p.2 = ' ' :: '<' :: (x.2 ++ ['>']) ∧ (∀ c ∈ p.1, c ≠ '\n') ∧
      x.2 ≠ [] ∧ ∀ c ∈ x.2, c ≠ '>' := by
  match hp : p.2 with
  | [] => simp [nameSplit, hp] at h
  | [c1] => simp [nameSplit, hp] at h
  | c1 :: c2 :: rest =>
      simp only [nameSplit, hp] at h
      by_cases hc : (p.1.all dotAny && decide (c1 = ' ') && decide (c2 = '<')) = true
      · rw [if_pos hc, Option.map_eq_some'] at h
        obtain ⟨a, ha, rfl⟩ := h
        obtain ⟨rfl, hane, hagt⟩ := addrCapture_sound ha
        simp only [Bool.and_eq_true, decide_eq_true_eq] at hc
        obtain ⟨⟨hdot, rfl⟩, rfl⟩ := hc
        refine ⟨rfl, rfl, ?_, hane, hagt⟩
        intro c hcm
        simpa [dotAny] using List.all_eq_true.mp hdot c hcm
      · rw [if_neg hc] at h
        exact absurd h (by simp)

/-- Soundness of `reCaptures`: captures reconstruct the input in the
name-space-bracketed-address shape. -/
theorem reCaptures_sound {s n a : List Char} (h : reCaptures s = some (n, a)) :
    s = n ++ ' ' :: '<' :: (a ++ ['>']) ∧ (∀ c ∈ n, c ≠ '\n') ∧ a ≠ [] ∧
      ∀ c ∈ a, c ≠ '>' := by
  have hmem : (n, a) ∈ (splits s).filterMap nameSplit := by
    rw [reCaptures] at h
    obtain ⟨hne, heq⟩ := List.mem_getLast?_eq_getLast (show (n, a) ∈ _ from h)
    rw [heq]
    exact List.getLast_mem hne
  obtain ⟨p, hp, hns⟩ := List.mem_filterMap.mp hmem
  obtain ⟨hx1, hp2, hdot, hane, hagt⟩ := nameSplit_sound hns
  have hs : p.1 ++ p.2 = s := splits_eq_append hp
  have hn : n = p.1 := hx1
  subst hn
  rw [hp2] at hs
  exact ⟨hs.symm, hdot, hane, hagt⟩

/-- A list with a unique occurrence of `c` splits uniquely at that
occurrence. -/
theorem first_occ_unique {c : Char} {l₁ r₁ l₂ r₂ : List Char}
    (h1 : c ∉ l₁) (h2 : c ∉ l₂) (h : l₁ ++ c :: r₁ = l₂ ++ c :: r₂) :
    l₁ = l₂ ∧ r₁ = r₂ := by
  induction l₁ generalizing l₂ with
  | nil =>
      cases l₂ with
      | nil => simpa using h
      | cons d ds =>
          simp only [List.nil_append, List.cons_append, List.cons.injEq] at h
          exact absurd (List.mem_cons_self d ds) (h.1 ▸ h2)
  | cons d ds ih =>
      cases l₂ with
      | nil =>
          simp only [List.nil_append, List.cons_append, List.cons.injEq] at h
          exact absurd (List.mem_cons_self d ds) (h.1.symm ▸ h1)
      | cons e es =>
          simp only [List.cons_append, List.cons.injEq] at h
          obtain ⟨rfl, h⟩ := h
          have := ih (fun hm => h1 (List.mem_cons_of_mem d hm))
            (fun hm => h2 (List.mem_cons_of_mem d hm)) h
          exact ⟨by rw [this.1], this.2⟩

/-- Completeness of `reCaptures`: on an input assembled from a bracket-free
newline-free name and a bracket-free non-empty address, the captures are
exactly that name and address. -/
theorem reCaptures_complete {n a : List Char}
    (hn1 : ∀ c ∈ n, c ≠ '\n') (hn2 : ∀ c ∈ n, c ≠ '<')
    (ha0 : a ≠ []) (ha1 : ∀ c ∈ a, c ≠ '>') (ha2 : ∀ c ∈ a, c ≠ '<') :
    reCaptures (n ++ ' ' :: '<' :: (a ++ ['>'])) = some (n, a) := by
  have hmem : (n, a) ∈ (splits (n ++ ' ' :: '<' :: (a ++ ['>']))).filterMap nameSplit := by
    refine List.mem_filterMap.mpr ⟨(n, ' ' :: '<' :: (a ++ ['>'])), append_mem_splits n _, ?_⟩
    have hdot : n.all dotAny = true :=
      List.all_eq_true.mpr fun c hc => by simp [dotAny, hn1 c hc]
    simp [nameSplit, hdot, addrCapture_complete ha0 ha1]
  have hcount : (n ++ ' ' :: '<' :: (a ++ ['>'])).count '<' = 1 := by
    have hn0 : n.count '<' = 0 := List.count_eq_zero.mpr fun hm => hn2 '<' hm rfl
    have ha0' : a.count '<' = 0 := List.count_eq_zero.mpr fun hm => ha2 '<' hm rfl
    simp [List.count_append, List.count_cons, hn0, ha0']
  have huniq : ∀ x ∈ (splits (n ++ ' ' :: '<' :: (a ++ ['>']))).filterMap nameSplit,
      x = (n, a) := by
    intro x hx
    obtain ⟨p, hp, hns⟩ := List.mem_filterMap.mp hx
    obtain ⟨hx1, hp2, _, _, _⟩ := nameSplit_sound hns
    have hs : p.1 ++ p.2 = n ++ ' ' :: '<' :: (a ++ ['>']) := splits_eq_append hp
    rw [hp2] at hs
    have hs' : (p.1 ++ [' ']) ++ '<' :: (x.2 ++ ['>']) =
        (n ++ [' ']) ++ '<' :: (a ++ ['>']) := by
      simpa using hs
    have hp1lt : '<' ∉ p.1 := by
      intro hm
      have h1 : 1 ≤ p.1.count '<' := List.one_le_count_iff.mpr hm
      have h2 : (p.1 ++ ' ' :: '<' :: (x.2 ++ ['>'])).count '<' = 1 := by
        rw [hs, hcount]
      simp [List.count_append, List.count_cons] at h2
      omega
    have hnlt : '<' ∉ n ++ [' '] := by
      intro hm
      rcases List.mem_append.mp hm with hm | hm
      · exact hn2 '<' hm rfl
      · simp at hm
    have hplt : '<' ∉ p.1 ++ [' '] := by
      intro hm
      rcases List.mem_append.mp hm with hm | hm
      · exact hp1lt hm
      · simp at hm
    obtain ⟨he1, he2⟩ := first_occ_unique hplt hnlt hs'
    have hn' : p.1 = n := List.append_cancel_right he1
    have ha' : x.2 = a := List.append_cancel_right he2
    have := hx1
    rw [hn'] at this
    calc x = (x.1, x.2) := rfl
    _ = (n, a) := by rw [this, ha']
  exact getLast?_all_eq hmem huniq

/-- If the input contains no space, the parser's regex cannot match. -/
theorem reCaptures_none_of_no_space {s : List Char} (h : ∀ c ∈ s, c ≠ ' ') :
    reCaptures s = none := by
  cases hr : reCaptures s with
  | none => rfl
  | some x =>
      obtain ⟨nx, ax⟩ := x
      obtain ⟨hs, -, -, -⟩ := reCaptures_sound hr
      have : ' ' ∈ s := by
        rw [hs]
        simp
      exact absurd rfl (h ' ' this)

/-- Unfolding of `seg1`. -/
theorem seg1_iff {l : List Char} :
    seg1 l = true ↔ l ≠ [] ∧ ∀ c ∈ l, okChar c = true := by
  simp [seg1, List.all_eq_true, List.isEmpty_iff]

/-- Characterization of `is_valid_address`: some decomposition into non-empty
runs of address characters around a literal at-sign and a literal domain
dot. -/
theorem is_valid_address_iff {s : List Char} :
    is_valid_address s = true ↔
      ∃ lp d1 d2 : List Char,
        s = lp ++ '@' :: (d1 ++ '.' :: d2) ∧
        lp ≠ [] ∧ (∀ c ∈ lp, okChar c = true) ∧
        d1 ≠ [] ∧ (∀ c ∈ d1, okChar c = true) ∧
        d2 ≠ [] ∧ (∀ c ∈ d2, okChar c = true) := by
  constructor
  · intro h
    rw [is_valid_address] at h
    obtain ⟨p, hp, hcond⟩ := List.any_eq_true.mp h
    rw [Bool.and_eq_true] at hcond
    obtain ⟨hseg, hdom⟩ := hcond
    have hps : p.1 ++ p.2 = s := splits_eq_append hp
    match hp2 : p.2 with
    | [] => rw [hp2] at hdom; simp [atDomain] at hdom
    | c :: rest =>
        rw [hp2] at hdom
        simp only [atDomain, Bool.and_eq_true, decide_eq_true_eq] at hdom
        obtain ⟨rfl, hrest⟩ := hdom
        obtain ⟨q, hq, hqc⟩ := List.any_eq_true.mp hrest
        rw [Bool.and_eq_true] at hqc
        obtain ⟨hq1, hq2⟩ := hqc
        have hqs : q.1 ++ q.2 = rest := splits_eq_append hq
        match hq2' : q.2 with
        | [] => rw [hq2'] at hq2; simp [dotSeg] at hq2
        | e :: d2 =>
            rw [hq2'] at hq2
            simp only [dotSeg, Bool.and_eq_true, decide_eq_true_eq] at hq2
            obtain ⟨rfl, hd2⟩ := hq2
            obtain ⟨hp1ne, hp1ok⟩ := seg1_iff.mp hseg
            obtain ⟨hq1ne, hq1ok⟩ := seg1_iff.mp hq1
            obtain ⟨hd2ne, hd2ok⟩ := seg1_iff.mp hd2
            refine ⟨p.1, q.1, d2, ?_, hp1ne, hp1ok, hq1ne, hq1ok, hd2ne, hd2ok⟩
            rw [← hps, hp2, ← hqs, hq2']
  · rintro ⟨lp, d1, d2, rfl, hlp0, hlp, hd10, hd1, hd20, hd2⟩
    rw [is_valid_address]
    refine List.any_eq_true.mpr ⟨(lp, '@' :: (d1 ++ '.' :: d2)), append_mem_splits lp _, ?_⟩
    rw [Bool.and_eq_true]
    refine ⟨seg1_iff.mpr ⟨hlp0, hlp⟩, ?_⟩
    simp only [atDomain, Bool.and_eq_true, decide_eq_true_eq]
    refine ⟨trivial, List.any_eq_true.mpr ⟨(d1, '.' :: d2), append_mem_splits d1 _, ?_⟩⟩
    rw [Bool.and_eq_true]
    refine ⟨seg1_iff.mpr ⟨hd10, hd1⟩, ?_⟩
    simp only [dotSeg, Bool.and_eq_true, decide_eq_true_eq]
    exact ⟨trivial, seg1_iff.mpr ⟨hd20, hd2⟩⟩

/-- A valid address is non-empty and contains only address characters (in
particular no angle bracket and no space). -/
theorem is_valid_address_okChars {s : List Char} (h : is_valid_address s = true) :
    s ≠ [] ∧ ∀ c ∈ s, okChar c = true := by
  obtain ⟨lp, d1, d2, rfl, hlp0, hlp, _, hd1, _, hd2⟩ := is_valid_address_iff.mp h
  refine ⟨by simp, ?_⟩
  intro c hc
  simp only [List.mem_append, List.mem_cons] at hc
  rcases hc with hc | hc | hc
  · exact hlp c hc
  · subst hc; decide
  · rcases hc with hc | hc | hc
    · exact hd1 c hc
    · subst hc; decide
    · exact hd2 c hc

/-- Elimination of a successful parse: the result is the candidate, its name
(if any) passed the display-name check, and its address passed the address
check. -/
theorem try_from_ok_elim {s : List Char} {e : EmailAddress}
    (h : try_from s = Except.ok e) :
    e = candidate s ∧ (∀ n, e.name = some n → is_valid_display_name n = true) ∧
      is_valid_address e.address = true := by
  simp only [try_from] at h
  rcases hn : (candidate s).name with _ | name
  · simp only [hn] at h
    by_cases hv : is_valid_address (candidate s).address = true
    · rw [if_pos hv] at h
      have he : candidate s = e := by injection h
      subst he
      refine ⟨rfl, ?_, hv⟩
      intro n hne
      rw [hn] at hne
      exact Option.noConfusion hne
    · rw [if_neg hv] at h
      exact Except.noConfusion h
  · simp only [hn] at h
    by_cases hd : is_valid_display_name name = true
    · rw [if_pos hd] at h
      by_cases hv : is_valid_address (candidate s).address = true
      · rw [if_pos hv] at h
        have he : candidate s = e := by injection h
        subst he
        refine ⟨rfl, ?_, hv⟩
        intro n hne
        rw [hn] at hne
        injection hne with hne'
        rw [← hne']
        exact hd
      · rw [if_neg hv] at h
        exact Except.noConfusion h
    · rw [if_neg hd] at h
      exact Except.noConfusion h

/-- A string whose at-signs are never followed by a dot. -/
theorem domainDotFree_no_dot {lp v : List Char}
    (h : domainDotFree (lp ++ '@' :: v) = true) :
    (v.all fun d => d ≠ '.') = true := by
  induction lp with
  | nil => simp [domainDotFree] at h ⊢; exact h.1
  | cons c cs ih =>
      by_cases hc : c = '@'
      · rw [List.cons_append, domainDotFree, if_pos hc, Bool.and_eq_true] at h
        exact ih h.2
      · rw [List.cons_append, domainDotFree, if_neg hc] at h
        exact ih h

/-- A domain-dot-free string never passes the address validator. -/
theorem not_valid_of_domainDotFree {a : List Char} (h : domainDotFree a = true) :
    is_valid_address a = false := by
  cases hb : is_valid_address a with
  | false => rfl
  | true =>
      obtain ⟨lp, d1, d2, rfl, _⟩ := is_valid_address_iff.mp hb
      have hc := domainDotFree_no_dot h
      have := List.all_eq_true.mp hc '.' (by simp)
      simp at this

/-- Unfolding of `okChar`. -/
theorem okChar_ne {c : Char} (h : okChar c = true) :
    c ≠ '<' ∧ c ≠ '>' ∧ c ≠ ' ' := by
  simp only [okChar, Bool.and_eq_true, decide_eq_true_eq] at h
  exact ⟨h.1.1, h.1.2, h.2⟩

/-- C4: parsing a well-formed bare address — non-empty runs of address
characters around a literal at-sign and a literal domain dot — succeeds with
no display name, and both `email` and `toDisplayText` return the input
verbatim. -/
theorem parse_bare_address (lp d1 d2 : List Char)
    (h1 : lp ≠ [] ∧ ∀ c ∈ lp, okChar c = true)
    (h2 : d1 ≠ [] ∧ ∀ c ∈ d1, okChar c = true)
    (h3 : d2 ≠ [] ∧ ∀ c ∈ d2, okChar c = true) :
    try_from (lp ++ '@' :: (d1 ++ '.' :: d2)) =
      Except.ok (EmailAddress.fromAddress (lp ++ '@' :: (d1 ++ '.' :: d2))) ∧
    (EmailAddress.fromAddress (lp ++ '@' :: (d1 ++ '.' :: d2))).email =
      lp ++ '@' :: (d1 ++ '.' :: d2) ∧
    (EmailAddress.fromAddress (lp ++ '@' :: (d1 ++ '.' :: d2))).toDisplayText =
      lp ++ '@' :: (d1 ++ '.' :: d2) := by
  have hv : is_valid_address (lp ++ '@' :: (d1 ++ '.' :: d2)) = true :=
    is_valid_address_iff.mpr ⟨lp, d1, d2, rfl, h1.1, h1.2, h2.1, h2.2, h3.1, h3.2⟩
  have hok := is_valid_address_okChars hv
  have hns : ∀ c ∈ lp ++ '@' :: (d1 ++ '.' :: d2), c ≠ ' ' := by
    intro c hc
    exact (okChar_ne (hok.2 c hc)).2.2
  have hrc := reCaptures_none_of_no_space hns
  refine ⟨?_, rfl, rfl⟩
  simp [try_from, candidate, hrc, EmailAddress.fromAddress, hv]

/-- Witness for C4: the spec's bare-address example parses to itself. -/
theorem parse_bare_address_witness :
    try_from ("test".toList ++ '@' :: ("email".toList ++ '.' :: "com".toList)) =
      Except.ok (EmailAddress.fromAddress
        ("test".toList ++ '@' :: ("email".toList ++ '.' :: "com".toList))) :=
  (parse_bare_address ("test".toList) ("email".toList) ("com".toList)
      ⟨by decide, by decide⟩ ⟨by decide, by decide⟩ ⟨by decide, by decide⟩).1

/-- Counterexample to C1 as stated: `EmailAddress::address("test")` is a
successfully-constructed value whose (absent) display name has no angle
brackets, yet parsing its display text fails instead of returning the value,
because the constructors perform no validation and "test" is not a valid
address. -/
theorem parse_display_roundtrip_cex :
    try_from ((EmailAddress.fromAddress ("test".toList)).toDisplayText) =
      Except.error invalidEmailAddress ∧
    ∀ e : EmailAddress,
      Except.error invalidEmailAddress ≠ Except.ok e := by
  refine ⟨rfl, ?_⟩
  intro e h
  exact Except.noConfusion h

/-- C1 amended: round-trip law.  For any `EmailAddress` whose address passes
the validator and whose display name, when present, is non-empty and free of
angle brackets and newlines, formatting then parsing returns the value
unchanged; moreover the display text of a value with a name is exactly the
name, a space, and the bracketed address, so on inputs of that shape parsing
succeeds and re-formatting reproduces the input exactly. -/
theorem parse_display_roundtrip (e : EmailAddress)
    (hn : ∀ n, e.name = some n →
        n ≠ [] ∧ ∀ c ∈ n, c ≠ '<' ∧ c ≠ '>' ∧ c ≠ '\n')
    (ha : is_valid_address e.address = true) :
    try_from e.toDisplayText = Except.ok e ∧
    ∀ n, e.name = some n →
      e.toDisplayText = n ++ ' ' :: '<' :: (e.address ++ ['>']) := by
  obtain ⟨nm, addr⟩ := e
  have hok := is_valid_address_okChars ha
  rcases nm with _ | n
  · have hns : ∀ c ∈ addr, c ≠ ' ' := fun c hc => (okChar_ne (hok.2 c hc)).2.2
    have hrc := reCaptures_none_of_no_space hns
    refine ⟨?_, ?_⟩
    · simp only [EmailAddress.toDisplayText]
      simp [try_from, candidate, hrc, EmailAddress.fromAddress, ha]
    · intro n hne
      exact Option.noConfusion hne
  · obtain ⟨hne, hch⟩ := hn n rfl
    have hrc : reCaptures (n ++ ' ' :: '<' :: (addr ++ ['>'])) = some (n, addr) := by
      apply reCaptures_complete
      · exact fun c hc => (hch c hc).2.2
      · exact fun c hc => (hch c hc).1
      · exact hok.1
      · exact fun c hc => (okChar_ne (hok.2 c hc)).2.1
      · exact fun c hc => (okChar_ne (hok.2 c hc)).1
    have hvn : is_valid_display_name n = true := by
      rw [is_valid_display_name, Bool.and_eq_true]
      constructor
      · simpa using hne
      · refine List.all_eq_true.mpr fun c hc => ?_
        have := hch c hc
        simp [noAngle, this.1, this.2.1]
    refine ⟨?_, ?_⟩
    · simp only [EmailAddress.toDisplayText]
      simp [try_from, candidate, hrc, EmailAddress.name_address, hvn, ha]
    · intro n' hne'
      injection hne' with h'
      rw [← h']
      rfl

/-- Witness for C1 amended: the spec's name-and-address example
round-trips. -/
theorem parse_display_roundtrip_witness :
    try_from ((EmailAddress.name_address ("Bob Test".toList)
        ("test@email.com".toList)).toDisplayText) =
      Except.ok (EmailAddress.name_address ("Bob Test".toList)
        ("test@email.com".toList)) :=
  (parse_display_roundtrip
      (EmailAddress.name_address ("Bob Test".toList) ("test@email.com".toList))
      (fun n hne => by
        injection hne with h
        rw [← h]
        exact ⟨by decide, by decide⟩)
      (by decide)).1

/-- Counterexample to C3: `EmailAddress::address` validates nothing, so a
directly-constructed value need not satisfy the data-model invariant: the
value built from the bare string "x" has an address that matches no
local-at-domain-dot shape. -/
theorem constructor_invariant_cex :
    addrInvariant (EmailAddress.fromAddress ("x".toList)) = false := rfl

/-- C3 amended: the data-model invariant holds for every `EmailAddress`
returned by `parse`; the direct constructors (`address`, `name_address`)
perform no validation, so values built through them need not satisfy it. -/
theorem parse_result_invariant (s : List Char) (e : EmailAddress)
    (h : try_from s = Except.ok e) : addrInvariant e = true := by
  obtain ⟨-, hname, haddr⟩ := try_from_ok_elim h
  rw [addrInvariant, Bool.and_eq_true]
  refine ⟨?_, haddr⟩
  rcases hn : e.name with _ | n
  · simp
  · simp only [hn]
    have := hname n hn
    rw [is_valid_display_name, Bool.and_eq_true] at this
    exact this.2

/-- Witness for C3 amended: the parse of "a@b.c" satisfies the invariant. -/
theorem parse_result_invariant_witness :
    addrInvariant (EmailAddress.fromAddress ("a@b.c".toList)) = true :=
  parse_result_invariant ("a@b.c".toList)
    (EmailAddress.fromAddress ("a@b.c".toList)) rfl

/-- C9: implicit invariant of parse output: a present display name is
non-empty with no angle brackets, and the address decomposes as one-or-more
address characters, an at-sign, more such characters, a dot, and more such
characters (hence is non-empty with an at-sign and a later dot). -/
theorem parse_ok_implicit_invariant (s : List Char) (e : EmailAddress)
    (h : try_from s = Except.ok e) :
    (∀ n, e.name = some n → n ≠ [] ∧ ∀ c ∈ n, c ≠ '<' ∧ c ≠ '>') ∧
    ∃ lp d1 d2 : List Char,
      e.address = lp ++ '@' :: (d1 ++ '.' :: d2) ∧
      lp ≠ [] ∧ (∀ c ∈ lp, okChar c = true) ∧
      d1 ≠ [] ∧ (∀ c ∈ d1, okChar c = true) ∧
      d2 ≠ [] ∧ (∀ c ∈ d2, okChar c = true) := by
  obtain ⟨-, hname, haddr⟩ := try_from_ok_elim h
  refine ⟨?_, is_valid_address_iff.mp haddr⟩
  intro n hn
  have := hname n hn
  rw [is_valid_display_name, Bool.and_eq_true] at this
  obtain ⟨h1, h2⟩ := this
  refine ⟨by simpa using h1, ?_⟩
  intro c hc
  have := List.all_eq_true.mp h2 c hc
  simp only [noAngle, Bool.and_eq_true, decide_eq_true_eq] at this
  exact this

/-- Witness for C9: instantiated at the successful parse of "a@b.c". -/
theorem parse_ok_implicit_invariant_witness :
    (∀ n, (EmailAddress.fromAddress ("a@b.c".toList)).name = some n →
        n ≠ [] ∧ ∀ c ∈ n, c ≠ '<' ∧ c ≠ '>') ∧
    ∃ lp d1 d2 : List Char,
      (EmailAddress.fromAddress ("a@b.c".toList)).address =
        lp ++ '@' :: (d1 ++ '.' :: d2) ∧
      lp ≠ [] ∧ (∀ c ∈ lp, okChar c = true) ∧
      d1 ≠ [] ∧ (∀ c ∈ d1, okChar c = true) ∧
      d2 ≠ [] ∧ (∀ c ∈ d2, okChar c = true) :=
  parse_ok_implicit_invariant ("a@b.c".toList)
    (EmailAddress.fromAddress ("a@b.c".toList)) rfl

/-- C6: the display-name check runs first and short-circuits: when the
candidate carries a display name that fails the check, the parser returns the
display-name error, even when the candidate's address is invalid as well. -/
theorem name_check_short_circuits (s n : List Char)
    (hn : (candidate s).name = some n)
    (h1 : is_valid_display_name n = false)
    (_h2 : is_valid_address (candidate s).address = false) :
    try_from s = Except.error invalidDisplayName := by
  simp [try_from, hn, h1]

/-- Witness for C6: " <b@c>" captures the empty (invalid) name over the
dotless (invalid) address "b@c" and reports the display-name error. -/
theorem name_check_short_circuits_witness :
    try_from (" <b@c>".toList) = Except.error invalidDisplayName :=
  name_check_short_circuits (" <b@c>".toList) [] rfl rfl rfl

/-- Counterexample to C5 as stated: the input "<a> <b@c>" has a dotless
domain part in its captured address "b@c", yet parsing fails with the
display-name error (the captured name "<a>" is invalid), not the address
error. -/
theorem dotless_domain_cex :
    domainDotFree (candidate ("<a> <b@c>".toList)).address = true ∧
    try_from ("<a> <b@c>".toList) = Except.error invalidDisplayName ∧
    invalidDisplayName ≠ invalidEmailAddress := by
  refine ⟨rfl, rfl, by decide⟩

/-- C5 amended: when the candidate's address contains no dot after any
at-sign, parsing fails; the error is the address error provided the
candidate's display name (if any) passes its check — otherwise the
display-name error is returned first, as the counterexample shows. -/
theorem dotless_domain_invalid_address (s : List Char)
    (hdot : domainDotFree (candidate s).address = true)
    (hname : ∀ n, (candidate s).name = some n → is_valid_display_name n = true) :
    try_from s = Except.error invalidEmailAddress := by
  have hv := not_valid_of_domainDotFree hdot
  rcases hn : (candidate s).name with _ | n
  · simp [try_from, hn, hv]
  · simp [try_from, hn, hname n hn, hv]

/-- Witness for C5 amended: "test" has no domain dot and no display name, and
parsing fails with the address error. -/
theorem dotless_domain_invalid_address_witness :
    try_from ("test".toList) = Except.error invalidEmailAddress :=
  dotless_domain_invalid_address ("test".toList) rfl
    (fun n hn => by
      rw [show (candidate ("test".toList)).name = none from rfl] at hn
      exact Option.noConfusion hn)

/-- C10: a single leading space before a bracketed valid address makes the
name-and-address pattern match with an empty captured name, which fails the
display-name check: parsing returns the display-name error rather than
succeeding or falling back to the address-only branch. -/
theorem empty_name_capture_rejected (a : List Char)
    (ha : is_valid_address a = true) :
    try_from (' ' :: '<' :: (a ++ ['>'])) = Except.error invalidDisplayName := by
  have hok := is_valid_address_okChars ha
  have hrc : reCaptures (' ' :: '<' :: (a ++ ['>'])) = some ([], a) := by
    have := reCaptures_complete (n := []) (by simp) (by simp) hok.1
      (fun c hc => (okChar_ne (hok.2 c hc)).2.1)
      (fun c hc => (okChar_ne (hok.2 c hc)).1)
    simpa using this
  simp [try_from, candidate, hrc, EmailAddress.name_address, is_valid_display_name]

/-- Witness for C10: " <a@b.c>" is rejected with the display-name error. -/
theorem empty_name_capture_rejected_witness :
    try_from (' ' :: '<' :: ("a@b.c".toList ++ ['>'])) =
      Except.error invalidDisplayName :=
  empty_name_capture_rejected ("a@b.c".toList) rfl
